import Mathlib

/-!
Verification of the time-tick synchronization core of the rootcoord package
(`internal/rootcoord/timeticksync.go`).

The Go state `timetickSync` is embedded shallowly:
* Go maps become association lists (`alistGet` / `mapAssign` / `mapDelete`
  mirror map lookup, assignment and `delete`);
* `typeutil.Timestamp` (uint64) becomes `Nat`; `math.MaxUint64` is the
  explicit constant `MAXU64`; no arithmetic is performed on timestamps, only
  comparisons, so no wrap-around is involved;
* the buffered channel `sendChan` (capacity 16) becomes a list-queue plus a
  `pendingSend` slot: a send on a full buffered channel blocks, which is
  modelled by parking the snapshot in `pendingSend` while the sender holds
  the table lock (no lock-taking operation can run until a `resume`);
* the `startWatch` dispatcher loop body becomes `dispatchSnapshot`; a nil
  pointer dereference (`local.chanTs` when the lookup returned nil) is
  modelled by `Option` with `none` as the fault;
* broadcasts performed by the dispatcher are accumulated in the ghost field
  `ttLog` (one entry per loop iteration) so that temporal claims can be
  stated over runs (`execTrace`).
-/

abbrev Timestamp := Nat
abbrev UniqueID := Int
abbrev ChannelName := String

/-- `math.MaxUint64`, used by the source as the "no outstanding DDL" sentinel. -/
def MAXU64 : Timestamp := 2 ^ 64 - 1

/-! ### Association lists standing for Go maps -/

/-- Go map lookup `m[k]` (presence-aware form `v, ok := m[k]`). -/
def alistGet {α β : Type} [DecidableEq α] : List (α × β) → α → Option β
  | [], _ => none
  | p :: rest, k => if p.1 = k then some p.2 else alistGet rest k

/-- Go map assignment `m[k] = v`: overwrite the entry when the key is
present, append a fresh entry otherwise. -/
def mapAssign {α β : Type} [DecidableEq α] (m : List (α × β)) (k : α) (v : β) :
    List (α × β) :=
  if (alistGet m k).isSome then
    m.map (fun p => if p.1 = k then (k, v) else p)
  else
    m ++ [(k, v)]

/-- Go `delete(m, k)`. -/
def mapDelete {α β : Type} [DecidableEq α] (m : List (α × β)) (k : α) :
    List (α × β) :=
  m.filter (fun p => decide (p.1 ≠ k))

/-! ### The per-proxy report -/

/-- `internalpb.ChannelTimeTickMsg`, restricted to the fields the core reads. -/
structure ChannelTimeTickMsg where
  sourceID : UniqueID
  channelNames : List ChannelName
  timestamps : List Timestamp
  defaultTimestamp : Timestamp
deriving DecidableEq

/-- `chanTsMsg`: a proxy's last accepted report. -/
structure ChanTsMsg where
  chanTs : List (ChannelName × Timestamp)
  defaultTs : Timestamp
  cnt : Int
deriving DecidableEq

/-- `newChanTsMsg`: build the per-channel map from the parallel name/timestamp
lists (later duplicates overwrite, as with a Go map). -/
def newChanTsMsg (m : ChannelTimeTickMsg) (cnt : Int) : ChanTsMsg :=
  { chanTs := (m.channelNames.zip m.timestamps).foldl
      (fun acc p => mapAssign acc p.1 p.2) []
    defaultTs := m.defaultTimestamp
    cnt := cnt }

/-- `(*chanTsMsg).getTimetick`: the channel's own entry when present, the
default timestamp otherwise. -/
def ChanTsMsg.getTimetick (c : ChanTsMsg) (channelName : ChannelName) : Timestamp :=
  match alistGet c.chanTs channelName with
  | some ts => ts
  | none => c.defaultTs

/-! ### The coordinator state -/

/-- The `proxyTimeTick` table: `nil` entries are `none`. -/
abbrev ProxyTable := List (UniqueID × Option ChanTsMsg)

/-- Capacity of `sendChan` (`make(chan …, 16)` in `newTimeTickSync`). -/
def sendChanCap : Nat := 16

/-- The mutable state of `timetickSync`, with two ghost fields: `ttLog`
records the per-iteration broadcasts of the dispatcher, `faulted` records a
nil-pointer dereference inside the dispatcher. -/
@[ext]
structure TtState where
  sourceID : UniqueID
  proxyTimeTick : ProxyTable
  sendChan : List ProxyTable
  pendingSend : Option ProxyTable
  ddlMinTs : Timestamp
  ddlTsSet : List Timestamp
  ttLog : List (List (ChannelName × Timestamp))
  faulted : Bool
deriving DecidableEq

/-- `newTimeTickSync`: empty table, empty queue, `ddlMinTs = MaxUint64`,
empty DDL set. -/
def initState (srcID : UniqueID) : TtState :=
  { sourceID := srcID
    proxyTimeTick := []
    sendChan := []
    pendingSend := none
    ddlMinTs := MAXU64
    ddlTsSet := []
    ttLog := []
    faulted := false }

/-! ### The reducer -/

/-- Replace every table entry by `nil`, keeping the keys. -/
def nullTable (tbl : ProxyTable) : ProxyTable := tbl.map (fun p => (p.1, none))

/-- The idle-proxy test of `sendToChannel`: some entry is `nil`. -/
def hasIdle (tbl : ProxyTable) : Bool := tbl.any (fun p => p.2.isNone)

/-- `sendToChannel`: abort when the table is empty or an entry is `nil`
(the idle branch only logs); otherwise clear the table to `nil`s and send the
clone on `sendChan`.  The send on the capacity-16 buffered channel completes
when the buffer has room and blocks otherwise; a blocked send is modelled by
parking the snapshot in `pendingSend`. -/
def sendToChannel (st : TtState) : TtState :=
  if st.proxyTimeTick.length = 0 then st
  else if hasIdle st.proxyTimeTick then st
  else
    let ptt := st.proxyTimeTick
    let cleared := nullTable st.proxyTimeTick
    if st.sendChan.length < sendChanCap then
      { st with proxyTimeTick := cleared, sendChan := st.sendChan ++ [ptt] }
    else
      { st with proxyTimeTick := cleared, pendingSend := some ptt }

/-! ### The DDL barrier -/

/-- `addDdlTimeTick`: lower the cached minimum when the new timestamp is
smaller and insert it into the set. -/
def addDdlTimeTick (st : TtState) (ts : Timestamp) : TtState :=
  { st with
    ddlMinTs := if ts < st.ddlMinTs then ts else st.ddlMinTs
    ddlTsSet := if ts ∈ st.ddlTsSet then st.ddlTsSet else st.ddlTsSet ++ [ts] }

/-- The loop body shared by the two minimum scans of the source:
`if tt < acc { acc = tt }`. -/
def minStep (acc tt : Timestamp) : Timestamp := if tt < acc then tt else acc

/-- The full-scan recomputation loop of `removeDdlTimeTick`:
`minTs := MaxUint64; for tt := range set { if tt < minTs { minTs = tt } }`. -/
def ddlScanMin (s : List Timestamp) : Timestamp := s.foldl minStep MAXU64

/-- `removeDdlTimeTick`: delete the timestamp; reset the cached minimum to
`MaxUint64` when the set becomes empty, recompute it by full scan when the
removed value equalled the cache. -/
def removeDdlTimeTick (st : TtState) (ts : Timestamp) : TtState :=
  let s := st.ddlTsSet.filter (fun tt => decide (tt ≠ ts))
  { st with
    ddlTsSet := s
    ddlMinTs :=
      if s.length = 0 then MAXU64
      else if st.ddlMinTs = ts then ddlScanMin s
      else st.ddlMinTs }

/-! ### updateTimeTick -/

/-- The possible results of `updateTimeTick`: the two `err ≠ nil` returns and
the four `nil` returns (three silent discards and the accepting path). -/
inductive TickOutcome
  | ignoredEmpty
  | errInvalidMsg
  | errUnknownProxy
  | blockedDdl
  | regressed
  | accepted
deriving DecidableEq

/-- Whether the Go function returned a non-nil error. -/
def TickOutcome.isErr : TickOutcome → Bool
  | .errInvalidMsg => true
  | .errUnknownProxy => true
  | _ => false

/-- The coordinator-regression test: only the coordinator's own reports are
checked, and only against a non-nil previous entry. -/
def regressedCheck (st : TtState) (m : ChannelTimeTickMsg)
    (prev : Option ChanTsMsg) : Bool :=
  decide (m.sourceID = st.sourceID) &&
    (match prev with
     | some p => decide (m.defaultTimestamp ≤ p.defaultTs)
     | none => false)

/-- `updateTimeTick`: shape checks, membership check, DDL-barrier check,
coordinator-regression check, then install the fresh report and invoke the
reducer. -/
def updateTimeTick (st : TtState) (m : ChannelTimeTickMsg) :
    TtState × TickOutcome :=
  if m.channelNames.length = 0 ∧ m.defaultTimestamp = 0 then
    (st, .ignoredEmpty)
  else if m.timestamps.length ≠ m.channelNames.length then
    (st, .errInvalidMsg)
  else
    match alistGet st.proxyTimeTick m.sourceID with
    | none => (st, .errUnknownProxy)
    | some prev =>
      if m.defaultTimestamp > st.ddlMinTs then (st, .blockedDdl)
      else if regressedCheck st m prev then (st, .regressed)
      else
        let cnt : Int := match prev with | none => 1 | some p => p.cnt + 1
        (sendToChannel
          { st with proxyTimeTick :=
              mapAssign st.proxyTimeTick m.sourceID (some (newChanTsMsg m cnt)) },
         .accepted)

/-! ### Proxy membership -/

/-- `addProxy`: unconditional map assignment of a `nil` entry. -/
def addProxy (st : TtState) (serverID : UniqueID) : TtState :=
  { st with proxyTimeTick := mapAssign st.proxyTimeTick serverID none }

/-- `delProxy`: when the key is present, delete it and invoke the reducer. -/
def delProxy (st : TtState) (serverID : UniqueID) : TtState :=
  if (alistGet st.proxyTimeTick serverID).isSome then
    sendToChannel { st with proxyTimeTick := mapDelete st.proxyTimeTick serverID }
  else st

/-- `clearProxy`: set every listed entry to `nil`. -/
def clearProxy (st : TtState) (ids : List UniqueID) : TtState :=
  { st with proxyTimeTick :=
      ids.foldl (fun tbl id => mapAssign tbl id none) st.proxyTimeTick }

/-! ### The dispatcher (`startWatch` loop body) -/

/-- All reports of a snapshot, dropping `nil` entries. -/
def reportsOf (snap : ProxyTable) : List ChanTsMsg := snap.filterMap (fun p => p.2)

/-- Whether no entry of the snapshot is `nil` (the per-channel workers
dereference every entry). -/
def snapshotAllPresent (snap : ProxyTable) : Bool := snap.all (fun p => p.2.isSome)

/-- The access `local := proxyTimetick[t.sourceID]; … local.chanTs` at the
top of the dispatcher iteration: the lookup yields a nil pointer both when
the key is absent and when the entry is `nil`, and the field read then
faults (`none`). -/
def localChanTsRead (snap : ProxyTable) (srcID : UniqueID) :
    Option (List (ChannelName × Timestamp)) :=
  match alistGet snap srcID with
  | some (some localMsg) => some localMsg.chanTs
  | _ => none

/-- The per-channel worker loop `mints := ts; for _, tt := range snapshot {…}`,
taking the minimum of `getTimetick` over every report. -/
def minOverSnapshot (snap : ProxyTable) (chanName : ChannelName)
    (ts : Timestamp) : Timestamp :=
  (reportsOf snap).foldl (fun mints tt => minStep mints (tt.getTimetick chanName)) ts

/-- One iteration of the `startWatch` loop on one snapshot: `none` models a
nil-pointer fault (missing or nil coordinator entry; or a nil entry hit by a
per-channel worker), `some []` the `continue` on an empty channel map,
`some l` the list of heartbeats `(channel, minTs)` broadcast concurrently. -/
def dispatchSnapshot (srcID : UniqueID) (snap : ProxyTable) :
    Option (List (ChannelName × Timestamp)) :=
  match localChanTsRead snap srcID with
  | none => none
  | some chanTsL =>
    if chanTsL.length = 0 then some []
    else if snapshotAllPresent snap then
      some (chanTsL.map (fun p => (p.1, minOverSnapshot snap p.1 p.2)))
    else none

/-! ### Runs of the system -/

/-- The operations of the core that the claims quantify over. -/
inductive TtAction
  | submit (m : ChannelTimeTickMsg)
  | addP (id : UniqueID)
  | delP (id : UniqueID)
  | clearP (ids : List UniqueID)
  | addDdl (ts : Timestamp)
  | removeDdl (ts : Timestamp)
  | dispatch
  | resume
deriving DecidableEq

/-- One step of the system.  Operations that take the table lock are blocked
while a `sendToChannel` send is parked (`pendingSend` non-empty, the sender
holds the lock); the DDL barrier uses its own lock and always proceeds.
`dispatch` consumes the queue head; `resume` completes a parked send once the
queue has room. -/
def step (st : TtState) (a : TtAction) : TtState :=
  match a with
  | .submit m => if st.pendingSend.isNone then (updateTimeTick st m).1 else st
  | .addP id => if st.pendingSend.isNone then addProxy st id else st
  | .delP id => if st.pendingSend.isNone then delProxy st id else st
  | .clearP ids => if st.pendingSend.isNone then clearProxy st ids else st
  | .addDdl ts => addDdlTimeTick st ts
  | .removeDdl ts => removeDdlTimeTick st ts
  | .resume =>
    match st.pendingSend with
    | some snap =>
      if st.sendChan.length < sendChanCap then
        { st with sendChan := st.sendChan ++ [snap], pendingSend := none }
      else st
    | none => st
  | .dispatch =>
    match st.sendChan with
    | [] => st
    | snap :: rest =>
      match dispatchSnapshot st.sourceID snap with
      | some bl => { st with sendChan := rest, ttLog := st.ttLog ++ [bl] }
      | none => { st with sendChan := rest, faulted := true }

/-- A run: fold the steps from a start state. -/
def execTrace (st : TtState) (acts : List TtAction) : TtState := acts.foldl step st

/-- The DDL-barrier operations alone, for claims about barrier reachability. -/
inductive DdlOp
  | add (ts : Timestamp)
  | remove (ts : Timestamp)
deriving DecidableEq

def applyDdlOp (st : TtState) : DdlOp → TtState
  | .add ts => addDdlTimeTick st ts
  | .remove ts => removeDdlTimeTick st ts

def applyDdlOps (st : TtState) (ops : List DdlOp) : TtState :=
  ops.foldl applyDdlOp st

/-! ### Specification-side predicates -/

/-- The round-complete predicate of the spec: a non-empty table all of whose
entries are non-nil. -/
def drainReady (tbl : ProxyTable) : Prop :=
  tbl ≠ [] ∧ ∀ p ∈ tbl, (p.2).isSome

instance (tbl : ProxyTable) : Decidable (drainReady tbl) := by
  unfold drainReady; infer_instance

/-- The heartbeat the dispatcher broadcasts on channel `c` from one
snapshot, when the iteration is well-defined and covers `c`. -/
def heartbeatOn (srcID : UniqueID) (snap : ProxyTable) (c : ChannelName) :
    Option Timestamp :=
  match dispatchSnapshot srcID snap with
  | some bl => alistGet bl c
  | none => none

/-- Every per-channel timestamp of a report message is at most its default
timestamp (the hypothesis under which DDL safety holds). -/
def MsgBounded (m : ChannelTimeTickMsg) : Prop :=
  ∀ v ∈ m.timestamps, v ≤ m.defaultTimestamp

/-- A stored report whose default timestamp is at most `ts` and whose
per-channel entries are at most its default timestamp. -/
def ReportBounded (ts : Timestamp) (r : ChanTsMsg) : Prop :=
  r.defaultTs ≤ ts ∧ ∀ p ∈ r.chanTs, p.2 ≤ r.defaultTs

/-- Every non-nil entry of the table is a bounded report. -/
def TableBounded (ts : Timestamp) (tbl : ProxyTable) : Prop :=
  ∀ p ∈ tbl, ∀ r : ChanTsMsg, p.2 = some r → ReportBounded ts r

/-- Every report anywhere in the system (table, queue, parked send) is
bounded by `ts`, and every heartbeat already broadcast is at most `ts`. -/
def StateBounded (ts : Timestamp) (st : TtState) : Prop :=
  TableBounded ts st.proxyTimeTick ∧
  (∀ snap ∈ st.sendChan, TableBounded ts snap) ∧
  (∀ snap, st.pendingSend = some snap → TableBounded ts snap) ∧
  (∀ l ∈ st.ttLog, ∀ b ∈ l, b.2 ≤ ts)

instance (m : ChannelTimeTickMsg) : Decidable (MsgBounded m) := by
  unfold MsgBounded; infer_instance

instance (ts : Timestamp) (r : ChanTsMsg) : Decidable (ReportBounded ts r) := by
  unfold ReportBounded; infer_instance

instance (ts : Timestamp) (tbl : ProxyTable) : Decidable (TableBounded ts tbl) := by
  unfold TableBounded
  have : ∀ p : UniqueID × Option ChanTsMsg,
      Decidable (∀ r : ChanTsMsg, p.2 = some r → ReportBounded ts r) := by
    intro p
    cases hp : p.2 with
    | none => exact isTrue (fun r hr => absurd hr (by simp))
    | some r0 =>
      by_cases hb : ReportBounded ts r0
      · exact isTrue (fun r hr => by
          rcases Option.some.inj hr with rfl
          exact hb)
      · exact isFalse (fun hall => hb (hall r0 rfl))
  infer_instance

/-- The cached minimum agrees with a full scan of the set. -/
def BarrierCoherent (st : TtState) : Prop := st.ddlMinTs = ddlScanMin st.ddlTsSet

/-- The cached minimum is a lower bound of the outstanding set (the part of
coherence that every operation preserves unconditionally). -/
def DdlLower (st : TtState) : Prop := ∀ x ∈ st.ddlTsSet, st.ddlMinTs ≤ x

/-- Coherence plus the uint64 range constraint on the stored timestamps
(the data model reserves `MAXU64`, so DDL timestamps are below it). -/
def BarrierInv (st : TtState) : Prop :=
  BarrierCoherent st ∧ ∀ x ∈ st.ddlTsSet, x < MAXU64

/-! ### Helper lemmas: association lists -/

theorem alistGet_eq_none {α β : Type} [DecidableEq α] {m : List (α × β)} {k : α}
    (h : alistGet m k = none) : ∀ p ∈ m, p.1 ≠ k := by
  induction m with
  | nil => intro p hp; cases hp
  | cons q rest ih =>
    intro p hp
    by_cases hq : q.1 = k
    · simp [alistGet, hq] at h
    · rcases List.mem_cons.mp hp with rfl | hp
      · exact hq
      · exact ih (by simpa [alistGet, hq] using h) p hp

theorem alistGet_mem {α β : Type} [DecidableEq α] {m : List (α × β)} {k : α} {v : β}
    (h : alistGet m k = some v) : (k, v) ∈ m := by
  induction m with
  | nil => simp [alistGet] at h
  | cons q rest ih =>
    unfold alistGet at h
    by_cases hq : q.1 = k
    · simp only [hq, if_pos rfl, Option.some.injEq] at h
      have : q = (k, v) := by cases q; simp_all
      simp [this]
    · exact List.mem_cons_of_mem _ (ih (by simpa [hq] using h))

theorem alistGet_append_left {α β : Type} [DecidableEq α] {m : List (α × β)}
    {k : α} {v : β} (h : alistGet m k = some v) (l : List (α × β)) :
    alistGet (m ++ l) k = some v := by
  induction m with
  | nil => simp [alistGet] at h
  | cons q rest ih =>
    rw [List.cons_append]
    by_cases hq : q.1 = k
    · have hv : q.2 = v := by simpa [alistGet, hq] using h
      simp [alistGet, hq, hv]
    · simpa [alistGet, hq] using ih (by simpa [alistGet, hq] using h)

theorem alistGet_append_none {α β : Type} [DecidableEq α] {m : List (α × β)}
    {k : α} (h : alistGet m k = none) (l : List (α × β)) :
    alistGet (m ++ l) k = alistGet l k := by
  induction m with
  | nil => simp
  | cons q rest ih =>
    rw [List.cons_append]
    by_cases hq : q.1 = k
    · simp [alistGet, hq] at h
    · simpa [alistGet, hq] using ih (by simpa [alistGet, hq] using h)

theorem alistGet_map_replace {α β : Type} [DecidableEq α] {m : List (α × β)}
    {k : α} (h : (alistGet m k).isSome) (v : β) :
    alistGet (m.map (fun p => if p.1 = k then (k, v) else p)) k = some v := by
  induction m with
  | nil => simp [alistGet] at h
  | cons q rest ih =>
    by_cases hq : q.1 = k
    · simp [alistGet, hq]
    · have h' : (alistGet rest k).isSome := by
        unfold alistGet at h; simpa [hq] using h
      simpa [alistGet, hq] using ih h'

theorem mapAssign_pos {α β : Type} [DecidableEq α] {m : List (α × β)} {k : α}
    (hs : (alistGet m k).isSome) (v : β) :
    mapAssign m k v = m.map (fun p => if p.1 = k then (k, v) else p) := by
  unfold mapAssign; rw [if_pos hs]

theorem mapAssign_neg {α β : Type} [DecidableEq α] {m : List (α × β)} {k : α}
    (hs : alistGet m k = none) (v : β) :
    mapAssign m k v = m ++ [(k, v)] := by
  unfold mapAssign; rw [if_neg (by simp [hs])]

theorem alistGet_mapAssign_self {α β : Type} [DecidableEq α]
    (m : List (α × β)) (k : α) (v : β) :
    alistGet (mapAssign m k v) k = some v := by
  by_cases hs : (alistGet m k).isSome
  · rw [mapAssign_pos hs]; exact alistGet_map_replace hs v
  · have hnone : alistGet m k = none := Option.not_isSome_iff_eq_none.mp hs
    rw [mapAssign_neg hnone, alistGet_append_none hnone]
    simp [alistGet]

theorem mem_mapAssign {α β : Type} [DecidableEq α] {m : List (α × β)}
    {k : α} {v : β} {p : α × β} (h : p ∈ mapAssign m k v) :
    p ∈ m ∨ p = (k, v) := by
  by_cases hs : (alistGet m k).isSome
  · rw [mapAssign_pos hs] at h
    rcases List.mem_map.mp h with ⟨q, hq, hfq⟩
    by_cases hk : q.1 = k
    · right; rw [if_pos hk] at hfq; exact hfq.symm
    · left; rw [if_neg hk] at hfq; exact hfq ▸ hq
  · have hnone : alistGet m k = none := Option.not_isSome_iff_eq_none.mp hs
    rw [mapAssign_neg hnone] at h
    rcases List.mem_append.mp h with hm | hm
    · exact Or.inl hm
    · right; simpa using hm

theorem key_mapAssign {α β : Type} [DecidableEq α] {m : List (α × β)}
    {k : α} {v : β} {p : α × β} (h : p ∈ mapAssign m k v) (hk : p.1 = k) :
    p = (k, v) := by
  by_cases hs : (alistGet m k).isSome
  · rw [mapAssign_pos hs] at h
    rcases List.mem_map.mp h with ⟨q, hq, hfq⟩
    by_cases hqk : q.1 = k
    · rw [if_pos hqk] at hfq; exact hfq.symm
    · exfalso
      rw [if_neg hqk] at hfq
      exact hqk (by rw [hfq]; exact hk)
  · have hnone : alistGet m k = none := Option.not_isSome_iff_eq_none.mp hs
    rw [mapAssign_neg hnone] at h
    rcases List.mem_append.mp h with hm | hm
    · exact absurd hk (alistGet_eq_none hnone p hm)
    · simpa using hm

theorem mapAssign_idem {α β : Type} [DecidableEq α] (m : List (α × β))
    (k : α) (v : β) :
    mapAssign (mapAssign m k v) k v = mapAssign m k v := by
  have hs2 : (alistGet (mapAssign m k v) k).isSome := by
    rw [alistGet_mapAssign_self]; rfl
  rw [mapAssign_pos hs2]
  have hcongr : ∀ p ∈ mapAssign m k v,
      (fun p : α × β => if p.1 = k then (k, v) else p) p = id p := by
    intro p hp
    by_cases hk : p.1 = k
    · simp [hk, key_mapAssign hp hk]
    · simp [hk]
  rw [List.map_congr_left hcongr, List.map_id]

theorem alistGet_of_nodup {α β : Type} [DecidableEq α] {m : List (α × β)}
    (hnd : (m.map Prod.fst).Nodup) {p : α × β} (hp : p ∈ m) :
    alistGet m p.1 = some p.2 := by
  induction m with
  | nil => cases hp
  | cons q rest ih =>
    simp only [List.map_cons, List.nodup_cons] at hnd
    rcases List.mem_cons.mp hp with rfl | hp
    · simp [alistGet]
    · by_cases hq : q.1 = p.1
      · exact absurd (hq ▸ List.mem_map.mpr ⟨p, hp, rfl⟩) hnd.1
      · simpa [alistGet, hq] using ih hnd.2 hp

/-! ### Helper lemmas: the minimum scans -/

theorem minStep_eq_right {a b : Timestamp} (h : b < a) : minStep a b = b := by
  unfold minStep; rw [if_pos h]

theorem minStep_eq_left {a b : Timestamp} (h : ¬ b < a) : minStep a b = a := by
  unfold minStep; rw [if_neg h]

theorem minStep_le_left (a b : Timestamp) : minStep a b ≤ a := by
  by_cases h : b < a
  · rw [minStep_eq_right h]; exact le_of_lt h
  · rw [minStep_eq_left h]

theorem minStep_le_right (a b : Timestamp) : minStep a b ≤ b := by
  by_cases h : b < a
  · rw [minStep_eq_right h]
  · rw [minStep_eq_left h]; exact le_of_not_lt h

theorem le_minStep {a b c : Timestamp} (ha : c ≤ a) (hb : c ≤ b) :
    c ≤ minStep a b := by
  by_cases h : b < a
  · rw [minStep_eq_right h]; exact hb
  · rw [minStep_eq_left h]; exact ha

theorem minFold_le_init (l : List Timestamp) (a : Timestamp) :
    l.foldl minStep a ≤ a := by
  induction l generalizing a with
  | nil => exact le_refl a
  | cons x xs ih =>
    rw [List.foldl_cons]
    exact le_trans (ih (minStep a x)) (minStep_le_left a x)

theorem minFold_le_mem {l : List Timestamp} {x : Timestamp} (hx : x ∈ l)
    (a : Timestamp) : l.foldl minStep a ≤ x := by
  induction l generalizing a with
  | nil => cases hx
  | cons y ys ih =>
    rw [List.foldl_cons]
    rcases List.mem_cons.mp hx with rfl | hx
    · exact le_trans (minFold_le_init ys (minStep a x)) (minStep_le_right a x)
    · exact ih hx (minStep a y)

theorem le_minFold {l : List Timestamp} {a b : Timestamp} (ha : b ≤ a)
    (h : ∀ x ∈ l, b ≤ x) : b ≤ l.foldl minStep a := by
  induction l generalizing a with
  | nil => exact ha
  | cons x xs ih =>
    rw [List.foldl_cons]
    exact ih (le_minStep ha (h x (List.mem_cons_self x xs)))
      (fun y hy => h y (List.mem_cons_of_mem x hy))

theorem minFold_mem_or_init (l : List Timestamp) (a : Timestamp) :
    l.foldl minStep a = a ∨ l.foldl minStep a ∈ l := by
  induction l generalizing a with
  | nil => left; rfl
  | cons x xs ih =>
    rw [List.foldl_cons]
    rcases ih (minStep a x) with h | h
    · rw [h]
      by_cases hx : x < a
      · right; rw [minStep_eq_right hx]; exact List.mem_cons_self x xs
      · left; exact minStep_eq_left hx
    · right; exact List.mem_cons_of_mem x h

/-! ### Helper lemmas: the DDL barrier -/

theorem addDdl_ddlTsSet (st : TtState) (ts : Timestamp) :
    (addDdlTimeTick st ts).ddlTsSet =
      if ts ∈ st.ddlTsSet then st.ddlTsSet else st.ddlTsSet ++ [ts] := rfl

theorem addDdl_ddlMinTs (st : TtState) (ts : Timestamp) :
    (addDdlTimeTick st ts).ddlMinTs =
      if ts < st.ddlMinTs then ts else st.ddlMinTs := rfl

theorem removeDdl_ddlTsSet (st : TtState) (ts : Timestamp) :
    (removeDdlTimeTick st ts).ddlTsSet =
      st.ddlTsSet.filter (fun tt => decide (tt ≠ ts)) := rfl

theorem removeDdl_ddlMinTs (st : TtState) (ts : Timestamp) :
    (removeDdlTimeTick st ts).ddlMinTs =
      (if (st.ddlTsSet.filter (fun tt => decide (tt ≠ ts))).length = 0 then MAXU64
       else if st.ddlMinTs = ts then
         ddlScanMin (st.ddlTsSet.filter (fun tt => decide (tt ≠ ts)))
       else st.ddlMinTs) := rfl

theorem filter_ne_of_not_mem {s : List Timestamp} {ts : Timestamp} (h : ts ∉ s) :
    s.filter (fun tt => decide (tt ≠ ts)) = s :=
  List.filter_eq_self.mpr (fun _ ha => decide_eq_true (fun e => h (e ▸ ha)))

theorem ddlScanMin_append (s : List Timestamp) (ts : Timestamp) :
    ddlScanMin (s ++ [ts]) = minStep (ddlScanMin s) ts := by
  unfold ddlScanMin
  rw [List.foldl_append]
  rfl

theorem ddlScanMin_mem_of_ne_nil {s : List Timestamp}
    (hbound : ∀ x ∈ s, x < MAXU64) (hne : s ≠ []) : ddlScanMin s ∈ s := by
  rcases minFold_mem_or_init s MAXU64 with h | h
  · exfalso
    rcases List.exists_mem_of_ne_nil s hne with ⟨x, hx⟩
    have h1 : ddlScanMin s ≤ x := minFold_le_mem hx MAXU64
    have hM : ddlScanMin s = MAXU64 := h
    rw [hM] at h1
    exact absurd (lt_of_le_of_lt h1 (hbound x hx)) (lt_irrefl MAXU64)
  · exact h

theorem barrierCoherent_add {st : TtState} (hc : BarrierCoherent st)
    (ts : Timestamp) : BarrierCoherent (addDdlTimeTick st ts) := by
  unfold BarrierCoherent
  rw [addDdl_ddlTsSet, addDdl_ddlMinTs]
  by_cases hmem : ts ∈ st.ddlTsSet
  · rw [if_pos hmem, ← hc]
    have hle : st.ddlMinTs ≤ ts := hc ▸ minFold_le_mem hmem MAXU64
    rw [if_neg (not_lt.mpr hle)]
  · rw [if_neg hmem, ddlScanMin_append, ← hc]
    rfl

theorem barrierCoherent_remove {st : TtState} (hc : BarrierCoherent st)
    (hbound : ∀ x ∈ st.ddlTsSet, x < MAXU64) (ts : Timestamp) :
    BarrierCoherent (removeDdlTimeTick st ts) := by
  unfold BarrierCoherent
  rw [removeDdl_ddlTsSet, removeDdl_ddlMinTs]
  by_cases h0 : (st.ddlTsSet.filter (fun tt => decide (tt ≠ ts))).length = 0
  · rw [if_pos h0, List.length_eq_zero.mp h0]
    rfl
  · rw [if_neg h0]
    by_cases heq : st.ddlMinTs = ts
    · rw [if_pos heq]
    · rw [if_neg heq]
      have hne : st.ddlTsSet ≠ [] := by
        intro h; rw [h] at h0; exact h0 rfl
      have hmem : st.ddlMinTs ∈ st.ddlTsSet :=
        hc ▸ ddlScanMin_mem_of_ne_nil hbound hne
      have hmem' : st.ddlMinTs ∈ st.ddlTsSet.filter (fun tt => decide (tt ≠ ts)) :=
        List.mem_filter.mpr ⟨hmem, decide_eq_true heq⟩
      refine le_antisymm ?_ (minFold_le_mem hmem' MAXU64)
      refine le_minFold (le_of_lt (hbound _ hmem)) (fun x hx => ?_)
      exact hc ▸ minFold_le_mem (List.mem_filter.mp hx).1 MAXU64

theorem barrierInv_add {st : TtState} (h : BarrierInv st) {ts : Timestamp}
    (hts : ts < MAXU64) : BarrierInv (addDdlTimeTick st ts) := by
  refine ⟨barrierCoherent_add h.1 ts, ?_⟩
  rw [addDdl_ddlTsSet]
  by_cases hmem : ts ∈ st.ddlTsSet
  · rw [if_pos hmem]; exact h.2
  · rw [if_neg hmem]
    intro x hx
    rcases List.mem_append.mp hx with hx | hx
    · exact h.2 x hx
    · rcases List.mem_singleton.mp hx with rfl
      exact hts

theorem barrierInv_remove {st : TtState} (h : BarrierInv st) (ts : Timestamp) :
    BarrierInv (removeDdlTimeTick st ts) := by
  refine ⟨barrierCoherent_remove h.1 h.2 ts, ?_⟩
  rw [removeDdl_ddlTsSet]
  exact fun x hx => h.2 x (List.mem_filter.mp hx).1

theorem barrierInv_init (srcID : UniqueID) : BarrierInv (initState srcID) :=
  ⟨rfl, fun x hx => absurd hx (List.not_mem_nil x)⟩

theorem barrierInv_applyDdlOps {st : TtState} (h : BarrierInv st)
    (ops : List DdlOp) (hlt : ∀ ts, DdlOp.add ts ∈ ops → ts < MAXU64) :
    BarrierInv (applyDdlOps st ops) := by
  induction ops generalizing st with
  | nil => exact h
  | cons op rest ih =>
    have hstep : BarrierInv (applyDdlOp st op) := by
      cases op with
      | add ts => exact barrierInv_add h (hlt ts (List.mem_cons_self _ _))
      | remove ts => exact barrierInv_remove h ts
    exact ih hstep (fun ts hts => hlt ts (List.mem_cons_of_mem _ hts))

/-! ### Claim C6: the DDL-barrier invariant on reachable states -/

/-- C6.  For every barrier state reachable from the initial state by any
sequence of `addDdlTimeTick` / `removeDdlTimeTick` operations whose added
timestamps lie below the reserved sentinel `MAXU64` (the data model reserves
`MAXU64` as "no barrier"), the cached `ddlMinTs` is the minimum of the
outstanding set — a lower bound that belongs to the set whenever the set is
non-empty — and it equals `MAXU64` exactly when the set is empty.  In
particular this holds right after any `remove`. -/
theorem ddl_barrier_min_invariant (srcID : UniqueID) (ops : List DdlOp)
    (hlt : ∀ ts, DdlOp.add ts ∈ ops → ts < MAXU64) :
    (∀ x ∈ (applyDdlOps (initState srcID) ops).ddlTsSet,
        (applyDdlOps (initState srcID) ops).ddlMinTs ≤ x) ∧
    ((applyDdlOps (initState srcID) ops).ddlTsSet ≠ [] →
        (applyDdlOps (initState srcID) ops).ddlMinTs
          ∈ (applyDdlOps (initState srcID) ops).ddlTsSet) ∧
    ((applyDdlOps (initState srcID) ops).ddlMinTs = MAXU64 ↔
        (applyDdlOps (initState srcID) ops).ddlTsSet = []) := by
  have hinv : BarrierInv (applyDdlOps (initState srcID) ops) :=
    barrierInv_applyDdlOps (barrierInv_init srcID) ops hlt
  refine ⟨fun x hx => hinv.1 ▸ minFold_le_mem hx MAXU64,
          fun hne => hinv.1 ▸ ddlScanMin_mem_of_ne_nil hinv.2 hne, ?_, ?_⟩
  · intro hM
    by_contra hne
    have hmem := hinv.1 ▸ ddlScanMin_mem_of_ne_nil hinv.2 hne
    exact absurd (hM ▸ hinv.2 _ hmem) (lt_irrefl MAXU64)
  · intro hempty
    rw [hinv.1, hempty]
    rfl

/-- Witness for C6 at the concrete operation sequence
`add 5; add 3; remove 3` (final barrier: set `[5]`, cached minimum `5`). -/
theorem ddl_barrier_min_invariant_witness :
    (∀ ts, DdlOp.add ts ∈ [DdlOp.add 5, DdlOp.add 3, DdlOp.remove 3] → ts < MAXU64) ∧
    ((∀ x ∈ (applyDdlOps (initState 1) [DdlOp.add 5, DdlOp.add 3, DdlOp.remove 3]).ddlTsSet,
        (applyDdlOps (initState 1) [DdlOp.add 5, DdlOp.add 3, DdlOp.remove 3]).ddlMinTs ≤ x) ∧
     ((applyDdlOps (initState 1) [DdlOp.add 5, DdlOp.add 3, DdlOp.remove 3]).ddlTsSet ≠ [] →
        (applyDdlOps (initState 1) [DdlOp.add 5, DdlOp.add 3, DdlOp.remove 3]).ddlMinTs
          ∈ (applyDdlOps (initState 1) [DdlOp.add 5, DdlOp.add 3, DdlOp.remove 3]).ddlTsSet) ∧
     ((applyDdlOps (initState 1) [DdlOp.add 5, DdlOp.add 3, DdlOp.remove 3]).ddlMinTs = MAXU64 ↔
        (applyDdlOps (initState 1) [DdlOp.add 5, DdlOp.add 3, DdlOp.remove 3]).ddlTsSet = [])) :=
  have hlt : ∀ ts, DdlOp.add ts ∈ [DdlOp.add 5, DdlOp.add 3, DdlOp.remove 3] →
      ts < MAXU64 := by
    intro ts hts
    simp only [List.mem_cons, List.not_mem_nil, or_false, DdlOp.add.injEq] at hts
    rcases hts with rfl | rfl | h
    · decide
    · decide
    · exact DdlOp.noConfusion h
  ⟨hlt, ddl_barrier_min_invariant 1 [DdlOp.add 5, DdlOp.add 3, DdlOp.remove 3] hlt⟩

/-! ### Claim C7: the add/remove round trip -/

/-- C7 counterexample.  The claim quantifies over every barrier state and
every timestamp; it fails when the timestamp is already outstanding.  Prior
state: the reachable barrier with set `[5]` and cached minimum `5`.  After
`add 5; remove 5` the barrier is empty with cached minimum `MAXU64`, not the
prior state. -/
theorem ddl_barrier_roundtrip_counterexample :
    removeDdlTimeTick (addDdlTimeTick (addDdlTimeTick (initState 1) 5) 5) 5
      ≠ addDdlTimeTick (initState 1) 5 := by decide

/-- C7 amended.  For every barrier state whose cached minimum is coherent
(true of every reachable state) and every timestamp that is not currently
outstanding, `add ts; remove ts` restores the whole state exactly. -/
theorem ddl_barrier_roundtrip (st : TtState) (ts : Timestamp)
    (hc : st.ddlMinTs = ddlScanMin st.ddlTsSet) (hmem : ts ∉ st.ddlTsSet) :
    removeDdlTimeTick (addDdlTimeTick st ts) ts = st := by
  have hset1 : (addDdlTimeTick st ts).ddlTsSet = st.ddlTsSet ++ [ts] := by
    rw [addDdl_ddlTsSet, if_neg hmem]
  have hfilter : (st.ddlTsSet ++ [ts]).filter (fun tt => decide (tt ≠ ts))
      = st.ddlTsSet := by
    rw [List.filter_append, filter_ne_of_not_mem hmem]
    simp
  have hset2 : (removeDdlTimeTick (addDdlTimeTick st ts) ts).ddlTsSet
      = st.ddlTsSet := by
    rw [removeDdl_ddlTsSet, hset1, hfilter]
  have hmin2 : (removeDdlTimeTick (addDdlTimeTick st ts) ts).ddlMinTs
      = st.ddlMinTs := by
    rw [removeDdl_ddlMinTs, hset1, hfilter, addDdl_ddlMinTs]
    by_cases h0 : st.ddlTsSet.length = 0
    · rw [if_pos h0, hc, List.length_eq_zero.mp h0]
      rfl
    · rw [if_neg h0]
      by_cases hlt : ts < st.ddlMinTs
      · rw [if_pos hlt, if_pos rfl, ← hc]
      · rw [if_neg hlt]
        by_cases hmt : st.ddlMinTs = ts
        · rw [if_pos hmt]
          exact hc.symm
        · rw [if_neg hmt]
  calc removeDdlTimeTick (addDdlTimeTick st ts) ts
      = { st with
          ddlTsSet := (removeDdlTimeTick (addDdlTimeTick st ts) ts).ddlTsSet,
          ddlMinTs := (removeDdlTimeTick (addDdlTimeTick st ts) ts).ddlMinTs } := rfl
    _ = st := by rw [hset2, hmin2]

/-- Witness for C7: prior barrier `[7]` (reachable, hence coherent cache),
round-tripping the fresh timestamp `3` restores the state exactly. -/
theorem ddl_barrier_roundtrip_witness :
    ((addDdlTimeTick (initState 1) 7).ddlMinTs
        = ddlScanMin (addDdlTimeTick (initState 1) 7).ddlTsSet ∧
      3 ∉ (addDdlTimeTick (initState 1) 7).ddlTsSet) ∧
    removeDdlTimeTick (addDdlTimeTick (addDdlTimeTick (initState 1) 7) 3) 3
      = addDdlTimeTick (initState 1) 7 :=
  ⟨⟨by decide, by decide⟩,
   ddl_barrier_roundtrip (addDdlTimeTick (initState 1) 7) 3 (by decide) (by decide)⟩

/-! ### Helper lemmas: the reducer -/

theorem hasIdle_eq_false {tbl : ProxyTable} :
    hasIdle tbl = false ↔ ∀ p ∈ tbl, (p.2).isSome := by
  unfold hasIdle
  rw [List.any_eq_false]
  constructor
  · intro h p hp
    have := h p hp
    cases hv : p.2
    · rw [hv] at this; simp at this
    · rfl
  · intro h p hp
    have := h p hp
    cases hv : p.2
    · rw [hv] at this; simp at this
    · simp [hv]

theorem sendToChannel_of_ready {st : TtState} (hready : drainReady st.proxyTimeTick) :
    sendToChannel st =
      if st.sendChan.length < sendChanCap then
        { st with proxyTimeTick := nullTable st.proxyTimeTick,
                  sendChan := st.sendChan ++ [st.proxyTimeTick] }
      else
        { st with proxyTimeTick := nullTable st.proxyTimeTick,
                  pendingSend := some st.proxyTimeTick } := by
  unfold sendToChannel
  have h0 : ¬ st.proxyTimeTick.length = 0 := by
    intro h
    exact hready.1 (List.length_eq_zero.mp h)
  have h1 : ¬ hasIdle st.proxyTimeTick = true := by
    rw [Bool.not_eq_true, hasIdle_eq_false]
    exact hready.2
  rw [if_neg h0, if_neg h1]

theorem sendToChannel_not_ready {st : TtState}
    (h : ¬ drainReady st.proxyTimeTick) : sendToChannel st = st := by
  unfold sendToChannel
  by_cases h0 : st.proxyTimeTick.length = 0
  · rw [if_pos h0]
  · rw [if_neg h0]
    have hidle : hasIdle st.proxyTimeTick = true := by
      by_contra hh
      rw [Bool.not_eq_true, hasIdle_eq_false] at hh
      exact h ⟨fun hnil => h0 (hnil ▸ rfl), hh⟩
    rw [if_pos hidle]

/-! ### Claim C3: the completeness predicate of the reducer -/

/-- C3.  `sendToChannel` commits — every entry becomes `nil` and the previous
entries are handed over as exactly one snapshot (appended to the queue when
it has room, otherwise held by the blocked send) — precisely when the table
is non-empty with every entry non-nil; otherwise the state is untouched. -/
theorem reducer_drain_iff (st : TtState) (hp : st.pendingSend = none) :
    (drainReady st.proxyTimeTick →
      (sendToChannel st).proxyTimeTick = nullTable st.proxyTimeTick ∧
      ((st.sendChan.length < sendChanCap ∧
          (sendToChannel st).sendChan = st.sendChan ++ [st.proxyTimeTick] ∧
          (sendToChannel st).pendingSend = none) ∨
        (sendChanCap ≤ st.sendChan.length ∧
          (sendToChannel st).sendChan = st.sendChan ∧
          (sendToChannel st).pendingSend = some st.proxyTimeTick))) ∧
    (¬ drainReady st.proxyTimeTick → sendToChannel st = st) := by
  constructor
  · intro hready
    rw [sendToChannel_of_ready hready]
    by_cases hlen : st.sendChan.length < sendChanCap
    · rw [if_pos hlen]
      exact ⟨rfl, Or.inl ⟨hlen, rfl, hp⟩⟩
    · rw [if_neg hlen]
      exact ⟨rfl, Or.inr ⟨le_of_not_lt hlen, rfl, rfl⟩⟩
  · exact sendToChannel_not_ready

/-- Witness for C3 at a complete one-proxy table with an empty queue. -/
theorem reducer_drain_iff_witness :
    ({ initState 1 with proxyTimeTick := [(1, some ⟨[("c", 4)], 4, 1⟩)] }
        : TtState).pendingSend = none ∧
    ((drainReady ({ initState 1 with
          proxyTimeTick := [(1, some ⟨[("c", 4)], 4, 1⟩)] } : TtState).proxyTimeTick →
      (sendToChannel { initState 1 with
          proxyTimeTick := [(1, some ⟨[("c", 4)], 4, 1⟩)] }).proxyTimeTick
        = nullTable [(1, some ⟨[("c", 4)], 4, 1⟩)] ∧
      ((([] : List ProxyTable).length < sendChanCap ∧
          (sendToChannel { initState 1 with
              proxyTimeTick := [(1, some ⟨[("c", 4)], 4, 1⟩)] }).sendChan
            = [] ++ [[(1, some ⟨[("c", 4)], 4, 1⟩)]] ∧
          (sendToChannel { initState 1 with
              proxyTimeTick := [(1, some ⟨[("c", 4)], 4, 1⟩)] }).pendingSend = none) ∨
        (sendChanCap ≤ ([] : List ProxyTable).length ∧
          (sendToChannel { initState 1 with
              proxyTimeTick := [(1, some ⟨[("c", 4)], 4, 1⟩)] }).sendChan = [] ∧
          (sendToChannel { initState 1 with
              proxyTimeTick := [(1, some ⟨[("c", 4)], 4, 1⟩)] }).pendingSend
            = some [(1, some ⟨[("c", 4)], 4, 1⟩)]))) ∧
    (¬ drainReady ({ initState 1 with
          proxyTimeTick := [(1, some ⟨[("c", 4)], 4, 1⟩)] } : TtState).proxyTimeTick →
      sendToChannel { initState 1 with
          proxyTimeTick := [(1, some ⟨[("c", 4)], 4, 1⟩)] }
        = { initState 1 with proxyTimeTick := [(1, some ⟨[("c", 4)], 4, 1⟩)] })) :=
  ⟨rfl, reducer_drain_iff
    { initState 1 with proxyTimeTick := [(1, some ⟨[("c", 4)], 4, 1⟩)] } rfl⟩

/-! ### Claim C4: behaviour of the drain at a full queue -/

/-- C4 counterexample.  At a complete table and a queue already holding 16
snapshots, the claim predicts a non-blocking send: the drain nulls the
entries and the snapshot is dropped (so the resulting state would be exactly
the nulled-table state, with nothing retained).  The code instead performs a
plain blocking channel send: the snapshot is parked by the blocked send, not
dropped. -/
theorem queue_full_drop_counterexample :
    sendToChannel { initState 1 with
        proxyTimeTick := [(1, some ⟨[("c", 1)], 1, 1⟩)],
        sendChan := List.replicate 16 [] }
      ≠ { initState 1 with
            proxyTimeTick := nullTable [(1, some ⟨[("c", 1)], 1, 1⟩)],
            sendChan := List.replicate 16 [] } ∧
    (sendToChannel { initState 1 with
        proxyTimeTick := [(1, some ⟨[("c", 1)], 1, 1⟩)],
        sendChan := List.replicate 16 [] }).pendingSend
      = some [(1, some ⟨[("c", 1)], 1, 1⟩)] := by
  constructor
  · decide
  · decide

/-- C4 amended.  The queue capacity is 16 and the drain commits (entries are
nulled) before the send; but the send is a plain blocking channel send: with
room in the queue the snapshot is enqueued, and with 16 snapshots already
queued the send blocks holding the snapshot — it is never dropped. -/
theorem queue_full_send_blocks (st : TtState) (hp : st.pendingSend = none)
    (hready : drainReady st.proxyTimeTick) :
    sendChanCap = 16 ∧
    (st.sendChan.length < 16 →
      (sendToChannel st).proxyTimeTick = nullTable st.proxyTimeTick ∧
      (sendToChannel st).sendChan = st.sendChan ++ [st.proxyTimeTick] ∧
      (sendToChannel st).pendingSend = none) ∧
    (16 ≤ st.sendChan.length →
      (sendToChannel st).proxyTimeTick = nullTable st.proxyTimeTick ∧
      (sendToChannel st).sendChan = st.sendChan ∧
      (sendToChannel st).pendingSend = some st.proxyTimeTick) := by
  refine ⟨rfl, ?_, ?_⟩
  · intro hlen
    have hlen' : st.sendChan.length < sendChanCap := hlen
    rw [sendToChannel_of_ready hready, if_pos hlen']
    exact ⟨rfl, rfl, hp⟩
  · intro hlen
    have hlen' : ¬ st.sendChan.length < sendChanCap := not_lt.mpr hlen
    rw [sendToChannel_of_ready hready, if_neg hlen']
    exact ⟨rfl, rfl, rfl⟩

/-- Witness for C4 at a complete one-proxy table and a full queue. -/
theorem queue_full_send_blocks_witness :
    ({ initState 1 with
        proxyTimeTick := [(1, some ⟨[("c", 2)], 2, 1⟩)],
        sendChan := List.replicate 16 [] } : TtState).pendingSend = none ∧
    drainReady ({ initState 1 with
        proxyTimeTick := [(1, some ⟨[("c", 2)], 2, 1⟩)],
        sendChan := List.replicate 16 [] } : TtState).proxyTimeTick ∧
    (16 ≤ (List.replicate 16 ([] : ProxyTable)).length →
      (sendToChannel { initState 1 with
          proxyTimeTick := [(1, some ⟨[("c", 2)], 2, 1⟩)],
          sendChan := List.replicate 16 [] }).proxyTimeTick
        = nullTable [(1, some ⟨[("c", 2)], 2, 1⟩)] ∧
      (sendToChannel { initState 1 with
          proxyTimeTick := [(1, some ⟨[("c", 2)], 2, 1⟩)],
          sendChan := List.replicate 16 [] }).sendChan
        = List.replicate 16 [] ∧
      (sendToChannel { initState 1 with
          proxyTimeTick := [(1, some ⟨[("c", 2)], 2, 1⟩)],
          sendChan := List.replicate 16 [] }).pendingSend
        = some [(1, some ⟨[("c", 2)], 2, 1⟩)]) :=
  ⟨rfl, by decide,
   (queue_full_send_blocks
      { initState 1 with
          proxyTimeTick := [(1, some ⟨[("c", 2)], 2, 1⟩)],
          sendChan := List.replicate 16 [] } rfl (by decide)).2.2⟩

/-! ### Claim C5: handling of malformed reports -/

/-- C5 counterexample.  A report with both lists empty and `defaultTs = 0`
is not rejected with an error: `updateTimeTick` returns `nil` (success) and
silently ignores it, leaving the state unchanged. -/
theorem malformed_error_counterexample :
    (updateTimeTick (initState 1) ⟨1, [], [], 0⟩).2 = TickOutcome.ignoredEmpty ∧
    TickOutcome.isErr (updateTimeTick (initState 1) ⟨1, [], [], 0⟩).2 = false ∧
    (updateTimeTick (initState 1) ⟨1, [], [], 0⟩).1 = initState 1 := by
  refine ⟨?_, ?_, ?_⟩ <;> decide

/-- C5 amended.  A report with an empty channel list and `defaultTs = 0` is
silently ignored (success, no mutation); any other report whose list lengths
differ is rejected with the `invalid TimeTickMsg` error, again with no
mutation. -/
theorem malformed_report_handling (st : TtState) (m : ChannelTimeTickMsg) :
    (m.channelNames.length = 0 ∧ m.defaultTimestamp = 0 →
      updateTimeTick st m = (st, TickOutcome.ignoredEmpty) ∧
      TickOutcome.isErr (updateTimeTick st m).2 = false) ∧
    (¬ (m.channelNames.length = 0 ∧ m.defaultTimestamp = 0) →
      m.timestamps.length ≠ m.channelNames.length →
      updateTimeTick st m = (st, TickOutcome.errInvalidMsg) ∧
      TickOutcome.isErr (updateTimeTick st m).2 = true) := by
  constructor
  · intro h
    have heq : updateTimeTick st m = (st, TickOutcome.ignoredEmpty) := by
      unfold updateTimeTick
      rw [if_pos h]
    exact ⟨heq, by rw [heq]; rfl⟩
  · intro h1 h2
    have heq : updateTimeTick st m = (st, TickOutcome.errInvalidMsg) := by
      unfold updateTimeTick
      rw [if_neg h1, if_pos h2]
    exact ⟨heq, by rw [heq]; rfl⟩

/-- Witness for C5: the silently ignored empty report and an errored
length-mismatch report, both at the initial state. -/
theorem malformed_report_handling_witness :
    (updateTimeTick (initState 1) ⟨1, [], [], 0⟩
        = (initState 1, TickOutcome.ignoredEmpty)) ∧
    (updateTimeTick (initState 1) ⟨1, ["c"], [], 5⟩
        = (initState 1, TickOutcome.errInvalidMsg)) :=
  ⟨(malformed_report_handling (initState 1) ⟨1, [], [], 0⟩).1 (by decide) |>.1,
   (malformed_report_handling (initState 1) ⟨1, ["c"], [], 5⟩).2
     (by decide) (by decide) |>.1⟩

/-! ### Claim C8: addProxy on an already-present proxy -/

/-- C8 counterexample.  `addProxy` is a plain map assignment; on a proxy
whose entry currently holds a report, it does not fail silently but resets
the entry to `nil`, so the table is not left identical. -/
theorem addProxy_noop_counterexample :
    addProxy { initState 1 with
        proxyTimeTick := [(2, some ⟨[("c", 7)], 7, 1⟩)] } 2
      ≠ { initState 1 with
            proxyTimeTick := [(2, some ⟨[("c", 7)], 7, 1⟩)] } := by decide

/-- C8 amended.  `addProxy` unconditionally assigns a `nil` entry: when the
proxy is absent it appends `(id, nil)`; when it is present with a `nil`
entry (and table keys are unique, as for a Go map) the table is left
identical; the entry is `nil` afterwards in every case, and the operation is
idempotent.  A present entry holding a report is overwritten (the
counterexample), which is the only deviation from the claim. -/
theorem addProxy_overwrite_behavior (st : TtState) (serverID : UniqueID) :
    (alistGet st.proxyTimeTick serverID = some none →
      (st.proxyTimeTick.map Prod.fst).Nodup → addProxy st serverID = st) ∧
    (alistGet st.proxyTimeTick serverID = none →
      (addProxy st serverID).proxyTimeTick = st.proxyTimeTick ++ [(serverID, none)]) ∧
    alistGet (addProxy st serverID).proxyTimeTick serverID = some none ∧
    addProxy (addProxy st serverID) serverID = addProxy st serverID := by
  refine ⟨?_, ?_, ?_, ?_⟩
  · intro hget hnd
    have hsome : (alistGet st.proxyTimeTick serverID).isSome := by rw [hget]; rfl
    unfold addProxy
    rw [mapAssign_pos hsome]
    have hcongr : ∀ p ∈ st.proxyTimeTick,
        (fun p : UniqueID × Option ChanTsMsg =>
          if p.1 = serverID then (serverID, none) else p) p = id p := by
      intro p hp
      by_cases hk : p.1 = serverID
      · have h2 := alistGet_of_nodup hnd hp
        rw [hk, hget] at h2
        have h3 : (none : Option ChanTsMsg) = p.2 := Option.some.inj h2
        simp only [id_eq, if_pos hk]
        rw [← hk, h3]
      · simp only [id_eq, if_neg hk]
    rw [List.map_congr_left hcongr, List.map_id]
  · intro hget
    exact mapAssign_neg hget none
  · exact alistGet_mapAssign_self st.proxyTimeTick serverID none
  · exact congrArg
      (fun tbl => ({ st with proxyTimeTick := tbl } : TtState))
      (mapAssign_idem st.proxyTimeTick serverID none)

/-- Witness for C8: the present-with-nil case leaves the table identical and
the absent case appends a `nil` entry. -/
theorem addProxy_overwrite_behavior_witness :
    (alistGet ([(1, none)] : ProxyTable) 1 = some none ∧
      (([(1, none)] : ProxyTable).map Prod.fst).Nodup ∧
      addProxy { initState 1 with proxyTimeTick := [(1, none)] } 1
        = { initState 1 with proxyTimeTick := [(1, none)] }) ∧
    (alistGet ([] : ProxyTable) 2 = none ∧
      (addProxy (initState 1) 2).proxyTimeTick = [] ++ [(2, none)]) :=
  ⟨⟨by decide, by decide,
    (addProxy_overwrite_behavior { initState 1 with proxyTimeTick := [(1, none)] } 1).1
      (by decide) (by decide)⟩,
   ⟨rfl, (addProxy_overwrite_behavior (initState 1) 2).2.1 rfl⟩⟩

/-! ### Claim C9: coordinator monotonicity is not enforced across drains -/

/-- C9.  After a completed drain every table entry is `nil`, and the
regression check compares only against a non-nil previous entry: a
registered source (in particular the coordinator) submitting any
`defaultTs` — even one at most the previously accepted value `v` — is
accepted rather than discarded as regressed, provided the report is
well-shaped and not blocked by the DDL barrier. -/
theorem coordinator_regression_not_enforced (st : TtState)
    (m : ChannelTimeTickMsg) (v : Timestamp)
    (hnull : ∀ p ∈ st.proxyTimeTick, p.2 = none)
    (hmem : alistGet st.proxyTimeTick m.sourceID ≠ none)
    (_hv : m.defaultTimestamp ≤ v)
    (hshape : ¬ (m.channelNames.length = 0 ∧ m.defaultTimestamp = 0))
    (hlen : m.timestamps.length = m.channelNames.length)
    (hbar : ¬ m.defaultTimestamp > st.ddlMinTs) :
    (updateTimeTick st m).2 = TickOutcome.accepted := by
  obtain ⟨prev, hget⟩ := Option.ne_none_iff_exists'.mp hmem
  have hprev : prev = none := hnull _ (alistGet_mem hget)
  subst hprev
  have hreg : regressedCheck st m none = false := by
    unfold regressedCheck
    simp
  unfold updateTimeTick
  rw [if_neg hshape, if_neg (not_not_intro hlen), hget]
  simp only [hreg, if_neg hbar, Bool.false_eq_true, if_false]

/-- Witness for C9 on a real run: the coordinator (source 1) gets `v = 300`
accepted, the single-proxy round drains (entry back to `nil`), and the
regressing report with `defaultTs = 250 ≤ 300` is accepted. -/
theorem coordinator_regression_not_enforced_witness :
    (∀ p ∈ (execTrace (initState 1)
        [TtAction.addP 1, TtAction.submit ⟨1, ["c"], [300], 300⟩]).proxyTimeTick,
      p.2 = none) ∧
    (updateTimeTick (execTrace (initState 1)
        [TtAction.addP 1, TtAction.submit ⟨1, ["c"], [300], 300⟩])
      ⟨1, ["c"], [250], 250⟩).2 = TickOutcome.accepted :=
  ⟨by decide,
   coordinator_regression_not_enforced
     (execTrace (initState 1)
        [TtAction.addP 1, TtAction.submit ⟨1, ["c"], [300], 300⟩])
     ⟨1, ["c"], [250], 250⟩ 300
     (by decide) (by decide) (by decide) (by decide) (by decide) (by decide)⟩

/-! ### Claim C10: the dispatcher's unchecked coordinator access -/

/-- C10.  Each dispatcher iteration reads
`local := snapshot[coordinatorId]; local.chanTs` with no presence check.
The access is well-defined exactly when the lookup yields a non-nil report;
when the snapshot lacks the coordinator's entry (or holds a nil one) the
lookup yields nil and the dereference faults, aborting the iteration.  A
drain-produced snapshot maps every registered proxy — in particular a
registered coordinator — to a non-nil report, and dispatching such a
snapshot is well-defined. -/
theorem dispatcher_coordinator_access (srcID : UniqueID) :
    (∀ (snap : ProxyTable) (r : ChanTsMsg),
        alistGet snap srcID = some (some r) →
        localChanTsRead snap srcID = some r.chanTs) ∧
    (∀ snap : ProxyTable, alistGet snap srcID = none →
        localChanTsRead snap srcID = none ∧ dispatchSnapshot srcID snap = none) ∧
    (∀ snap : ProxyTable, alistGet snap srcID = some none →
        localChanTsRead snap srcID = none) ∧
    (∀ tbl : ProxyTable, drainReady tbl → alistGet tbl srcID ≠ none →
        ∃ r, alistGet tbl srcID = some (some r) ∧
          localChanTsRead tbl srcID = some r.chanTs) ∧
    (∀ (snap : ProxyTable) (r : ChanTsMsg),
        alistGet snap srcID = some (some r) → snapshotAllPresent snap = true →
        (dispatchSnapshot srcID snap).isSome) := by
  refine ⟨?_, ?_, ?_, ?_, ?_⟩
  · intro snap r h
    simp [localChanTsRead, h]
  · intro snap h
    exact ⟨by simp [localChanTsRead, h], by simp [dispatchSnapshot, localChanTsRead, h]⟩
  · intro snap h
    simp [localChanTsRead, h]
  · intro tbl hready hne
    obtain ⟨x, hx⟩ := Option.ne_none_iff_exists'.mp hne
    have hsome : x.isSome := hready.2 _ (alistGet_mem hx)
    obtain ⟨r, rfl⟩ := Option.isSome_iff_exists.mp hsome
    exact ⟨r, hx, by simp [localChanTsRead, hx]⟩
  · intro snap r h hall
    have hl : localChanTsRead snap srcID = some r.chanTs := by
      simp [localChanTsRead, h]
    unfold dispatchSnapshot
    rw [hl]
    by_cases h0 : r.chanTs.length = 0
    · simp [h0]
    · simp [h0, hall]

/-- Witness for C10: a drained one-proxy snapshot is read and dispatched
successfully; the empty snapshot faults. -/
theorem dispatcher_coordinator_access_witness :
    (alistGet ([(1, some ⟨[("c", 9)], 9, 1⟩)] : ProxyTable) 1
        = some (some ⟨[("c", 9)], 9, 1⟩) ∧
      localChanTsRead [(1, some ⟨[("c", 9)], 9, 1⟩)] 1 = some [("c", 9)]) ∧
    (alistGet ([] : ProxyTable) 1 = none ∧
      localChanTsRead [] 1 = none ∧ dispatchSnapshot 1 [] = none) ∧
    (drainReady ([(1, some ⟨[("c", 9)], 9, 1⟩)] : ProxyTable) ∧
      ∃ r, alistGet ([(1, some ⟨[("c", 9)], 9, 1⟩)] : ProxyTable) 1
          = some (some r) ∧
        localChanTsRead [(1, some ⟨[("c", 9)], 9, 1⟩)] 1 = some r.chanTs) ∧
    (snapshotAllPresent [(1, some ⟨[("c", 9)], 9, 1⟩)] = true ∧
      (dispatchSnapshot 1 [(1, some ⟨[("c", 9)], 9, 1⟩)]).isSome) :=
  ⟨⟨by decide,
    (dispatcher_coordinator_access 1).1 [(1, some ⟨[("c", 9)], 9, 1⟩)]
      ⟨[("c", 9)], 9, 1⟩ (by decide)⟩,
   ⟨rfl, (dispatcher_coordinator_access 1).2.1 [] rfl⟩,
   ⟨by decide,
    (dispatcher_coordinator_access 1).2.2.2.1 [(1, some ⟨[("c", 9)], 9, 1⟩)]
      (by decide) (by decide)⟩,
   ⟨by decide,
    (dispatcher_coordinator_access 1).2.2.2.2 [(1, some ⟨[("c", 9)], 9, 1⟩)]
      ⟨[("c", 9)], 9, 1⟩ (by decide) (by decide)⟩⟩

/-! ### Helper lemmas: bounded reports and snapshots -/

theorem mem_foldl_mapAssign {α β : Type} [DecidableEq α]
    {pairs : List (α × β)} {acc : List (α × β)} {q : α × β}
    (hq : q ∈ pairs.foldl (fun acc p => mapAssign acc p.1 p.2) acc) :
    q ∈ acc ∨ ∃ p ∈ pairs, q = p := by
  induction pairs generalizing acc with
  | nil => exact Or.inl hq
  | cons p rest ih =>
    rcases ih hq with h | ⟨p', hp', rfl⟩
    · rcases mem_mapAssign h with h' | h'
      · exact Or.inl h'
      · exact Or.inr ⟨p, List.mem_cons_self p rest, by rw [h']⟩
    · exact Or.inr ⟨q, List.mem_cons_of_mem p hp', rfl⟩

theorem newChanTsMsg_bounded {m : ChannelTimeTickMsg} {ts : Timestamp}
    (hmsg : MsgBounded m) (hdef : m.defaultTimestamp ≤ ts) (cnt : Int) :
    ReportBounded ts (newChanTsMsg m cnt) := by
  refine ⟨hdef, ?_⟩
  intro p hp
  rcases mem_foldl_mapAssign hp with h | ⟨q, hq, rfl⟩
  · cases h
  · exact hmsg p.2 (List.of_mem_zip hq).2

theorem tableBounded_nullTable (ts : Timestamp) (tbl : ProxyTable) :
    TableBounded ts (nullTable tbl) := by
  intro p hp r hr
  rcases List.mem_map.mp hp with ⟨q, _, rfl⟩
  cases hr

theorem tableBounded_mapAssign {ts : Timestamp} {tbl : ProxyTable}
    (h : TableBounded ts tbl) {k : UniqueID} {v : Option ChanTsMsg}
    (hv : ∀ r : ChanTsMsg, v = some r → ReportBounded ts r) :
    TableBounded ts (mapAssign tbl k v) := by
  intro p hp r hr
  rcases mem_mapAssign hp with hm | rfl
  · exact h p hm r hr
  · exact hv r hr

theorem tableBounded_subset {ts : Timestamp} {tbl tbl' : ProxyTable}
    (hsub : ∀ p ∈ tbl', p ∈ tbl) (h : TableBounded ts tbl) :
    TableBounded ts tbl' :=
  fun p hp => h p (hsub p hp)

theorem sendToChannel_ddlMinTs (st : TtState) :
    (sendToChannel st).ddlMinTs = st.ddlMinTs := by
  unfold sendToChannel
  split
  · rfl
  split
  · rfl
  split <;> rfl

theorem sendToChannel_ddlTsSet (st : TtState) :
    (sendToChannel st).ddlTsSet = st.ddlTsSet := by
  unfold sendToChannel
  split
  · rfl
  split
  · rfl
  split <;> rfl

theorem ddlLower_of_fields {st st' : TtState} (h : DdlLower st)
    (hset : st'.ddlTsSet = st.ddlTsSet) (hmin : st'.ddlMinTs = st.ddlMinTs) :
    DdlLower st' := by
  intro x hx
  rw [hset] at hx
  rw [hmin]
  exact h x hx

/-! ### Helper lemmas: the per-channel minimum -/

theorem minOverSnapshot_eq_fold (snap : ProxyTable) (c : ChannelName)
    (ts : Timestamp) :
    minOverSnapshot snap c ts
      = ((reportsOf snap).map (fun tt => tt.getTimetick c)).foldl minStep ts := by
  unfold minOverSnapshot
  rw [List.foldl_map]

theorem minOverSnapshot_le_init (snap : ProxyTable) (c : ChannelName)
    (ts : Timestamp) : minOverSnapshot snap c ts ≤ ts := by
  rw [minOverSnapshot_eq_fold]
  exact minFold_le_init _ ts

theorem minOverSnapshot_le_report {snap : ProxyTable} {r : ChanTsMsg}
    (hr : r ∈ reportsOf snap) (c : ChannelName) (ts : Timestamp) :
    minOverSnapshot snap c ts ≤ r.getTimetick c := by
  rw [minOverSnapshot_eq_fold]
  exact minFold_le_mem (List.mem_map.mpr ⟨r, hr, rfl⟩) ts

theorem le_minOverSnapshot {snap : ProxyTable} {c : ChannelName}
    {ts b : Timestamp} (hts : b ≤ ts)
    (h : ∀ r ∈ reportsOf snap, b ≤ r.getTimetick c) :
    b ≤ minOverSnapshot snap c ts := by
  rw [minOverSnapshot_eq_fold]
  refine le_minFold hts ?_
  intro x hx
  rcases List.mem_map.mp hx with ⟨r, hr, rfl⟩
  exact h r hr

theorem alistGet_map_pair {α β γ : Type} [DecidableEq α]
    (l : List (α × β)) (g : α → β → γ) (k : α) :
    alistGet (l.map (fun p => (p.1, g p.1 p.2))) k
      = (alistGet l k).map (g k) := by
  induction l with
  | nil => rfl
  | cons q rest ih =>
    by_cases hq : q.1 = k
    · simp [alistGet, hq]
    · simp [alistGet, hq, ih]

/-! ### Helper lemmas: case analysis of updateTimeTick and dispatch -/

theorem updateTimeTick_fst_cases (st : TtState) (m : ChannelTimeTickMsg) :
    (updateTimeTick st m).1 = st ∨
    (¬ m.defaultTimestamp > st.ddlMinTs ∧
      ∃ cnt : Int, (updateTimeTick st m).1
        = sendToChannel { st with
            proxyTimeTick := mapAssign st.proxyTimeTick m.sourceID (some (newChanTsMsg m cnt)) }) := by
  unfold updateTimeTick
  by_cases h1 : m.channelNames.length = 0 ∧ m.defaultTimestamp = 0
  · rw [if_pos h1]
    exact Or.inl rfl
  · rw [if_neg h1]
    by_cases h2 : m.timestamps.length ≠ m.channelNames.length
    · rw [if_pos h2]
      exact Or.inl rfl
    · rw [if_neg h2]
      cases hget : alistGet st.proxyTimeTick m.sourceID with
      | none => exact Or.inl rfl
      | some prev =>
        simp only []
        by_cases h3 : m.defaultTimestamp > st.ddlMinTs
        · rw [if_pos h3]
          exact Or.inl rfl
        · rw [if_neg h3]
          by_cases h4 : regressedCheck st m prev = true
          · rw [if_pos h4]
            exact Or.inl rfl
          · rw [if_neg h4]
            cases prev with
            | none => exact Or.inr ⟨h3, 1, rfl⟩
            | some p => exact Or.inr ⟨h3, p.cnt + 1, rfl⟩

theorem updateTimeTick_ddl_fields (st : TtState) (m : ChannelTimeTickMsg) :
    (updateTimeTick st m).1.ddlMinTs = st.ddlMinTs ∧
    (updateTimeTick st m).1.ddlTsSet = st.ddlTsSet := by
  rcases updateTimeTick_fst_cases st m with h | ⟨_, cnt, h⟩
  · rw [h]
    exact ⟨rfl, rfl⟩
  · rw [h, sendToChannel_ddlMinTs, sendToChannel_ddlTsSet]
    exact ⟨rfl, rfl⟩

theorem stateBounded_sendToChannel {ts : Timestamp} {st : TtState}
    (h : StateBounded ts st) : StateBounded ts (sendToChannel st) := by
  by_cases hready : drainReady st.proxyTimeTick
  · rw [sendToChannel_of_ready hready]
    by_cases hlen : st.sendChan.length < sendChanCap
    · rw [if_pos hlen]
      refine ⟨tableBounded_nullTable ts _, ?_, h.2.2.1, h.2.2.2⟩
      intro snap hsnap
      rcases List.mem_append.mp hsnap with hs | hs
      · exact h.2.1 snap hs
      · rcases List.mem_singleton.mp hs with rfl
        exact h.1
    · rw [if_neg hlen]
      refine ⟨tableBounded_nullTable ts _, h.2.1, ?_, h.2.2.2⟩
      intro snap hsnap
      rcases Option.some.inj hsnap with rfl
      exact h.1
  · rw [sendToChannel_not_ready hready]
    exact h

theorem localChanTsRead_inv {snap : ProxyTable} {srcID : UniqueID}
    {chanTsL : List (ChannelName × Timestamp)}
    (hl : localChanTsRead snap srcID = some chanTsL) :
    ∃ lm : ChanTsMsg, alistGet snap srcID = some (some lm)
      ∧ chanTsL = lm.chanTs := by
  unfold localChanTsRead at hl
  cases hg : alistGet snap srcID with
  | none => rw [hg] at hl; cases hl
  | some o =>
    cases o with
    | none => rw [hg] at hl; cases hl
    | some lm =>
      rw [hg] at hl
      exact ⟨lm, rfl, (Option.some.inj hl).symm⟩

theorem dispatchSnapshot_bounded {ts : Timestamp} {srcID : UniqueID}
    {snap : ProxyTable} {bl : List (ChannelName × Timestamp)}
    (hb : TableBounded ts snap)
    (hd : dispatchSnapshot srcID snap = some bl) :
    ∀ b ∈ bl, b.2 ≤ ts := by
  unfold dispatchSnapshot at hd
  cases hl : localChanTsRead snap srcID with
  | none => rw [hl] at hd; cases hd
  | some chanTsL =>
    rw [hl] at hd
    simp only [] at hd
    obtain ⟨lm, hg, rfl⟩ := localChanTsRead_inv hl
    have hlmb : ReportBounded ts lm := hb _ (alistGet_mem hg) lm rfl
    by_cases h0 : lm.chanTs.length = 0
    · rw [if_pos h0] at hd
      intro b hbmem
      rw [← Option.some.inj hd] at hbmem
      cases hbmem
    · rw [if_neg h0] at hd
      by_cases hall : snapshotAllPresent snap = true
      · rw [if_pos hall] at hd
        intro b hbmem
        rw [← Option.some.inj hd] at hbmem
        rcases List.mem_map.mp hbmem with ⟨p, hp, rfl⟩
        calc minOverSnapshot snap p.1 p.2
            ≤ p.2 := minOverSnapshot_le_init snap p.1 p.2
          _ ≤ lm.defaultTs := hlmb.2 p hp
          _ ≤ ts := hlmb.1
      · rw [if_neg hall] at hd
        cases hd

/-! ### Helper lemmas: invariants along a run -/

theorem ddlLower_add {st : TtState} (h : DdlLower st) (ts : Timestamp) :
    DdlLower (addDdlTimeTick st ts) := by
  intro x hx
  rw [addDdl_ddlTsSet] at hx
  rw [addDdl_ddlMinTs]
  show minStep st.ddlMinTs ts ≤ x
  by_cases hmem : ts ∈ st.ddlTsSet
  · rw [if_pos hmem] at hx
    exact le_trans (minStep_le_left _ _) (h x hx)
  · rw [if_neg hmem] at hx
    rcases List.mem_append.mp hx with hx | hx
    · exact le_trans (minStep_le_left _ _) (h x hx)
    · rcases List.mem_singleton.mp hx with rfl
      exact minStep_le_right _ _

theorem ddlLower_remove {st : TtState} (h : DdlLower st) (ts : Timestamp) :
    DdlLower (removeDdlTimeTick st ts) := by
  intro x hx
  rw [removeDdl_ddlTsSet] at hx
  rw [removeDdl_ddlMinTs]
  by_cases h0 : (st.ddlTsSet.filter (fun tt => decide (tt ≠ ts))).length = 0
  · exfalso
    rw [List.length_eq_zero.mp h0] at hx
    cases hx
  · rw [if_neg h0]
    by_cases heq : st.ddlMinTs = ts
    · rw [if_pos heq]
      exact minFold_le_mem hx MAXU64
    · rw [if_neg heq]
      exact h x (List.mem_filter.mp hx).1

theorem ddlLower_step {st : TtState} (a : TtAction) (h : DdlLower st) :
    DdlLower (step st a) := by
  cases a with
  | submit m =>
    simp only [step]
    by_cases hp : st.pendingSend.isNone
    · rw [if_pos hp]
      exact ddlLower_of_fields h (updateTimeTick_ddl_fields st m).2
        (updateTimeTick_ddl_fields st m).1
    · rw [if_neg hp]
      exact h
  | addP id =>
    simp only [step]
    by_cases hp : st.pendingSend.isNone
    · rw [if_pos hp]
      exact ddlLower_of_fields h rfl rfl
    · rw [if_neg hp]
      exact h
  | delP id =>
    simp only [step]
    by_cases hp : st.pendingSend.isNone
    · rw [if_pos hp]
      unfold delProxy
      by_cases hmem : (alistGet st.proxyTimeTick id).isSome
      · rw [if_pos hmem]
        exact ddlLower_of_fields h (sendToChannel_ddlTsSet _) (sendToChannel_ddlMinTs _)
      · rw [if_neg hmem]
        exact h
    · rw [if_neg hp]
      exact h
  | clearP ids =>
    simp only [step]
    by_cases hp : st.pendingSend.isNone
    · rw [if_pos hp]
      exact ddlLower_of_fields h rfl rfl
    · rw [if_neg hp]
      exact h
  | addDdl ts => exact ddlLower_add h ts
  | removeDdl ts => exact ddlLower_remove h ts
  | resume =>
    simp only [step]
    cases hps : st.pendingSend with
    | none => exact h
    | some snap =>
      simp only []
      by_cases hlen : st.sendChan.length < sendChanCap
      · rw [if_pos hlen]
        exact ddlLower_of_fields h rfl rfl
      · rw [if_neg hlen]
        exact h
  | dispatch =>
    simp only [step]
    cases hq : st.sendChan with
    | nil => exact h
    | cons snap rest =>
      simp only []
      cases hd : dispatchSnapshot st.sourceID snap with
      | some bl => exact ddlLower_of_fields h rfl rfl
      | none => exact ddlLower_of_fields h rfl rfl

theorem stateBounded_step {ts : Timestamp} {st : TtState} (a : TtAction)
    (hlow : DdlLower st) (h : StateBounded ts st)
    (hsub : ∀ m, a = TtAction.submit m → MsgBounded m ∧ ts ∈ st.ddlTsSet) :
    StateBounded ts (step st a) := by
  cases a with
  | submit m =>
    simp only [step]
    by_cases hp : st.pendingSend.isNone
    · rw [if_pos hp]
      rcases updateTimeTick_fst_cases st m with heq | ⟨hbar, cnt, heq⟩
      · rw [heq]
        exact h
      · rw [heq]
        apply stateBounded_sendToChannel
        have hmb := hsub m rfl
        refine ⟨?_, h.2.1, h.2.2.1, h.2.2.2⟩
        apply tableBounded_mapAssign h.1
        intro r hr
        rcases Option.some.inj hr with rfl
        exact newChanTsMsg_bounded hmb.1
          (le_trans (le_of_not_lt hbar) (hlow ts hmb.2)) cnt
    · rw [if_neg hp]
      exact h
  | addP id =>
    simp only [step]
    by_cases hp : st.pendingSend.isNone
    · rw [if_pos hp]
      exact ⟨tableBounded_mapAssign h.1 (fun r hr => Option.noConfusion hr),
             h.2.1, h.2.2.1, h.2.2.2⟩
    · rw [if_neg hp]
      exact h
  | delP id =>
    simp only [step]
    by_cases hp : st.pendingSend.isNone
    · rw [if_pos hp]
      unfold delProxy
      by_cases hmem : (alistGet st.proxyTimeTick id).isSome
      · rw [if_pos hmem]
        apply stateBounded_sendToChannel
        exact ⟨tableBounded_subset (fun p hp' => (List.mem_filter.mp hp').1) h.1,
               h.2.1, h.2.2.1, h.2.2.2⟩
      · rw [if_neg hmem]
        exact h
    · rw [if_neg hp]
      exact h
  | clearP ids =>
    simp only [step]
    by_cases hp : st.pendingSend.isNone
    · rw [if_pos hp]
      refine ⟨?_, h.2.1, h.2.2.1, h.2.2.2⟩
      have hgen : ∀ (l : List UniqueID) (tbl : ProxyTable), TableBounded ts tbl →
          TableBounded ts (l.foldl (fun tbl id => mapAssign tbl id none) tbl) := by
        intro l
        induction l with
        | nil => exact fun tbl hb => hb
        | cons id rest ih =>
          intro tbl hb
          exact ih _ (tableBounded_mapAssign hb (fun r hr => Option.noConfusion hr))
      exact hgen ids st.proxyTimeTick h.1
    · rw [if_neg hp]
      exact h
  | addDdl ts' => exact h
  | removeDdl ts' => exact h
  | resume =>
    simp only [step]
    cases hps : st.pendingSend with
    | none => exact h
    | some snap =>
      simp only []
      by_cases hlen : st.sendChan.length < sendChanCap
      · rw [if_pos hlen]
        refine ⟨h.1, ?_, ?_, h.2.2.2⟩
        · intro s hs
          rcases List.mem_append.mp hs with hs | hs
          · exact h.2.1 s hs
          · rcases List.mem_singleton.mp hs with rfl
            exact h.2.2.1 s hps
        · intro s hs
          cases hs
      · rw [if_neg hlen]
        exact h
  | dispatch =>
    simp only [step]
    cases hq : st.sendChan with
    | nil => exact h
    | cons snap rest =>
      simp only []
      have hsnapb : TableBounded ts snap :=
        h.2.1 snap (by rw [hq]; exact List.mem_cons_self _ _)
      have hrest : ∀ s ∈ rest, TableBounded ts s :=
        fun s hs => h.2.1 s (by rw [hq]; exact List.mem_cons_of_mem _ hs)
      cases hd : dispatchSnapshot st.sourceID snap with
      | some bl =>
        refine ⟨h.1, hrest, h.2.2.1, ?_⟩
        intro l hl
        rcases List.mem_append.mp hl with hl | hl
        · exact h.2.2.2 l hl
        · rcases List.mem_singleton.mp hl with rfl
          exact dispatchSnapshot_bounded hsnapb hd
      | none =>
        exact ⟨h.1, hrest, h.2.2.1, h.2.2.2⟩

theorem stateBounded_execTrace {ts : Timestamp} (acts : List TtAction)
    (st : TtState) (hlow : DdlLower st) (h : StateBounded ts st)
    (hmsg : ∀ m, TtAction.submit m ∈ acts → MsgBounded m)
    (hbar : ∀ pre m rest, acts = pre ++ TtAction.submit m :: rest →
        ts ∈ (execTrace st pre).ddlTsSet) :
    StateBounded ts (execTrace st acts) := by
  induction acts generalizing st with
  | nil => exact h
  | cons a rest ih =>
    have hstep : StateBounded ts (step st a) := by
      apply stateBounded_step a hlow h
      intro m ham
      constructor
      · apply hmsg m
        rw [ham] at *
        exact List.mem_cons_self _ _
      · have hb := hbar [] m rest (by rw [ham]; rfl)
        exact hb
    have htr : execTrace st (a :: rest) = execTrace (step st a) rest := rfl
    rw [htr]
    apply ih (step st a) (ddlLower_step a hlow) hstep
    · intro m hm
      exact hmsg m (List.mem_cons_of_mem a hm)
    · intro pre m rest' hsplit
      have hb := hbar (a :: pre) m rest' (by rw [hsplit]; rfl)
      exact hb

/-! ### Claim C1: DDL safety -/

/-- C1 counterexample.  A run in which `500` is in the DDL barrier at the
moment of the only `submitTick` (and stays there): the report
`{names ["c"], timestamps [1000], defaultTs 100}` passes the barrier check
because only its `defaultTs` is compared (`100 ≤ 500`), the round drains,
and the dispatcher broadcasts the heartbeat `("c", 1000)` with
`1000 > 500` — past the outstanding DDL timestamp. -/
theorem ddl_safety_counterexample :
    500 ∈ (execTrace (initState 1)
        [TtAction.addP 1, TtAction.addDdl 500]).ddlTsSet ∧
    (execTrace (initState 1)
        [TtAction.addP 1, TtAction.addDdl 500,
         TtAction.submit ⟨1, ["c"], [1000], 100⟩, TtAction.dispatch]).ddlTsSet
      = [500] ∧
    (execTrace (initState 1)
        [TtAction.addP 1, TtAction.addDdl 500,
         TtAction.submit ⟨1, ["c"], [1000], 100⟩, TtAction.dispatch]).ttLog
      = [[("c", 1000)]] ∧
    ¬ (1000 : Timestamp) ≤ 500 := by
  refine ⟨?_, ?_, ?_, ?_⟩ <;> decide

/-- C1 amended.  The barrier check compares only `defaultTs`, so DDL safety
additionally requires each submitted report's per-channel timestamps to be
bounded by its `defaultTs` (`MsgBounded`).  Under that hypothesis: in every
run from the initial state in which `ts` is in the DDL set at the moment of
each `submitTick`, every heartbeat ever broadcast is at most `ts` — the
Dispatcher never broadcasts a per-channel minimum past the outstanding DDL
timestamp. -/
theorem ddl_safety_bounded_reports (srcID : UniqueID) (ts : Timestamp)
    (acts : List TtAction)
    (hmsg : ∀ m, TtAction.submit m ∈ acts → MsgBounded m)
    (hbar : ∀ pre m rest, acts = pre ++ TtAction.submit m :: rest →
        ts ∈ (execTrace (initState srcID) pre).ddlTsSet) :
    ∀ l ∈ (execTrace (initState srcID) acts).ttLog, ∀ b ∈ l, b.2 ≤ ts := by
  have hlow : DdlLower (initState srcID) :=
    fun x hx => absurd hx (List.not_mem_nil x)
  have hsb : StateBounded ts (initState srcID) := by
    refine ⟨?_, ?_, ?_, ?_⟩
    · intro p hp
      cases hp
    · intro s hs
      cases hs
    · intro s hs
      cases hs
    · intro l hl
      cases hl
  exact (stateBounded_execTrace acts _ hlow hsb hmsg hbar).2.2.2

/-- Witness for C1: with `500` outstanding for the whole run and a bounded
report (`400 ≤ 450 ≤ 500`), the only heartbeat is `("c", 400)` and it is at
most `500`. -/
theorem ddl_safety_bounded_reports_witness :
    (execTrace (initState 1)
        [TtAction.addP 1, TtAction.addDdl 500,
         TtAction.submit ⟨1, ["c"], [400], 450⟩, TtAction.dispatch]).ttLog
      = [[("c", 400)]] ∧
    (("c", 400) : ChannelName × Timestamp).2 ≤ 500 := by
  constructor
  · decide
  · apply ddl_safety_bounded_reports 1 500
      [TtAction.addP 1, TtAction.addDdl 500,
       TtAction.submit ⟨1, ["c"], [400], 450⟩, TtAction.dispatch]
      ?hmsg ?hbar [("c", 400)] (by decide) ("c", 400) (by decide)
    case hmsg =>
      intro m hm
      simp only [List.mem_cons, List.not_mem_nil, or_false] at hm
      rcases hm with hm | hm | hm | hm
      · exact absurd hm (by simp)
      · exact absurd hm (by simp)
      · rcases TtAction.submit.inj hm.symm with rfl
        decide
      · exact absurd hm (by simp)
    case hbar =>
      intro pre m rest hsplit
      rcases pre with _ | ⟨a, _ | ⟨b, _ | ⟨c, _ | ⟨d, pre⟩⟩⟩⟩ <;>
        simp only [List.cons_append, List.nil_append, List.cons.injEq,
          List.append_eq_nil, and_false, false_and] at hsplit
      · exact absurd hsplit.1 (by simp)
      · exact absurd hsplit.2.1 (by simp)
      · obtain ⟨rfl, rfl, -, -⟩ := hsplit
        decide
      · exact absurd hsplit.2.2.2.1 (by simp)
      · exact absurd hsplit.2.2.2.2 (by
          intro hcontr
          exact List.cons_ne_nil _ _ (List.append_eq_nil.mp hcontr.symm).2)

/-! ### Claim C2: per-channel monotonicity -/

theorem heartbeatOn_spec {srcID : UniqueID} {snap : ProxyTable}
    {c : ChannelName} {v : Timestamp}
    (h : heartbeatOn srcID snap c = some v) :
    ∃ (lm : ChanTsMsg) (ts0 : Timestamp),
      alistGet snap srcID = some (some lm) ∧
      alistGet lm.chanTs c = some ts0 ∧
      v = minOverSnapshot snap c ts0 := by
  unfold heartbeatOn at h
  cases hd : dispatchSnapshot srcID snap with
  | none => rw [hd] at h; cases h
  | some bl =>
    rw [hd] at h
    simp only [] at h
    unfold dispatchSnapshot at hd
    cases hl : localChanTsRead snap srcID with
    | none => rw [hl] at hd; cases hd
    | some chanTsL =>
      rw [hl] at hd
      simp only [] at hd
      obtain ⟨lm, hg, rfl⟩ := localChanTsRead_inv hl
      by_cases h0 : lm.chanTs.length = 0
      · rw [if_pos h0] at hd
        rw [← Option.some.inj hd] at h
        cases h
      · rw [if_neg h0] at hd
        by_cases hall : snapshotAllPresent snap = true
        · rw [if_pos hall] at hd
          rw [← Option.some.inj hd] at h
          rw [alistGet_map_pair lm.chanTs (fun a b => minOverSnapshot snap a b) c] at h
          cases hg2 : alistGet lm.chanTs c with
          | none => rw [hg2] at h; cases h
          | some ts0 =>
            rw [hg2] at h
            exact ⟨lm, ts0, hg, hg2, (Option.some.inj h).symm⟩
        · rw [if_neg hall] at hd
          cases hd

/-- C2 counterexample.  A run in which every proxy's own reported values for
channel `"c"` are non-decreasing — the coordinator (source 1) reports 100
then 200, proxy 2 reports 50 once — but proxy 2 is added between the two
rounds, so the broadcasts on `"c"` are 100 and then 50: the sequence
decreases.  (The table grows mid-run, which the claim explicitly includes.) -/
theorem per_channel_monotonicity_counterexample :
    (execTrace (initState 1)
        [TtAction.addP 1, TtAction.submit ⟨1, ["c"], [100], 100⟩,
         TtAction.dispatch, TtAction.addP 2,
         TtAction.submit ⟨1, ["c"], [200], 200⟩,
         TtAction.submit ⟨2, ["c"], [50], 50⟩, TtAction.dispatch]).ttLog
      = [[("c", 100)], [("c", 50)]] ∧
    ¬ (100 : Timestamp) ≤ 50 := by
  constructor
  · decide
  · decide

/-- C2 amended.  Between two dispatched snapshots the broadcast on channel
`c` cannot decrease provided every proxy contributing to the later snapshot
already contributed to the earlier one with a value for `c` at most its
later value (per-proxy monotonicity restricted to a non-growing proxy set:
a proxy newly added between the rounds can lower the minimum, as the
counterexample shows). -/
theorem per_channel_min_monotone (srcID : UniqueID)
    (snap1 snap2 : ProxyTable) (c : ChannelName) (v1 v2 : Timestamp)
    (h1 : heartbeatOn srcID snap1 c = some v1)
    (h2 : heartbeatOn srcID snap2 c = some v2)
    (hmono : ∀ p ∈ snap2, ∀ r2 : ChanTsMsg, p.2 = some r2 →
        ∃ r1 : ChanTsMsg, alistGet snap1 p.1 = some (some r1) ∧
          r1.getTimetick c ≤ r2.getTimetick c) :
    v1 ≤ v2 := by
  obtain ⟨lm1, t01, hg1, hc1, hv1⟩ := heartbeatOn_spec h1
  obtain ⟨lm2, t02, hg2, hc2, hv2⟩ := heartbeatOn_spec h2
  have hlb : ∀ r ∈ reportsOf snap1, v1 ≤ r.getTimetick c := by
    intro r hr
    rw [hv1]
    exact minOverSnapshot_le_report hr c t01
  have hdom : ∀ r2 ∈ reportsOf snap2, v1 ≤ r2.getTimetick c := by
    intro r2 hr2
    obtain ⟨p, hp, hpr⟩ := List.mem_filterMap.mp hr2
    obtain ⟨r1, hr1get, hle⟩ := hmono p hp r2 hpr
    have hr1mem : r1 ∈ reportsOf snap1 :=
      List.mem_filterMap.mpr ⟨(p.1, some r1), alistGet_mem hr1get, rfl⟩
    exact le_trans (hlb r1 hr1mem) hle
  have hlm2mem : lm2 ∈ reportsOf snap2 :=
    List.mem_filterMap.mpr ⟨(srcID, some lm2), alistGet_mem hg2, rfl⟩
  have ht02 : lm2.getTimetick c = t02 := by
    unfold ChanTsMsg.getTimetick
    rw [hc2]
  rw [hv2]
  exact le_minOverSnapshot (ht02 ▸ hdom lm2 hlm2mem) hdom

/-- Witness for C2: two successive one-proxy snapshots with values 100 and
200 on `"c"`; the broadcasts are 100 and 200, non-decreasing. -/
theorem per_channel_min_monotone_witness :
    heartbeatOn 1 [(1, some ⟨[("c", 100)], 100, 1⟩)] "c" = some 100 ∧
    heartbeatOn 1 [(1, some ⟨[("c", 200)], 200, 2⟩)] "c" = some 200 ∧
    (100 : Timestamp) ≤ 200 :=
  ⟨by decide, by decide,
   per_channel_min_monotone 1 [(1, some ⟨[("c", 100)], 100, 1⟩)]
     [(1, some ⟨[("c", 200)], 200, 2⟩)] "c" 100 200 (by decide) (by decide)
     (by
       intro p hp r2 hr2
       simp only [List.mem_singleton] at hp
       subst hp
       simp only [Option.some.injEq] at hr2
       subst hr2
       exact ⟨⟨[("c", 100)], 100, 1⟩, by decide, by decide⟩)⟩
